import Mathlib

/-!
Shallow embedding of the telliot mining client (Go) for checking its
natural-language specification.  The definitions below are translated from
the repository sources:

* `src/pkg/db/remoteRequest.go`   — signed request wire codec
* `src/pkg/pow/miningSetup.go`    — `remoteImpl` data-server proxy
  (`Verify`, `hasAddressPrefix`, `IncomingRequest`)
* `src/unnamed/part_000`          — `main` package (`mineCmd`, `ExitOnError`)
* `src/pkg/config/config.go`      — `validateConfig`
* `src/pkg/util/httpRetriever.go` — `HTTPWithRetries` / `_recReq`

Go byte slices are modelled as `List Nat` (each element a byte value), Go
strings as Lean `String` (the keys of this protocol are ASCII, one byte per
character), machine integers as `Nat`/`Int` with explicit `% 2^w` where
overflow matters, and fallible Go functions as `Option`/`Except`.
-/

namespace Telliot

/-- A Go byte slice: a list of byte values. -/
abbrev Bytes := List Nat

/-! ### Binary primitives

Modelled from the spec: the low-level `encode`/`decode`/`encodeString`/
`encodeBytes`/`decodeString`/`decodeBytes` helpers used by
`src/pkg/db/remoteRequest.go` are not among the provided source files; the
spec (section 4.5) fixes their wire format as length-prefixed big-endian
(`int64` timestamp, `uint32` counts and lengths followed by raw bytes), which
is what these definitions implement. -/

/-- Big-endian encoding of a `uint32` (4 bytes). -/
def encodeU32 (n : Nat) : Bytes :=
  [n / 16777216 % 256, n / 65536 % 256, n / 256 % 256, n % 256]

/-- Big-endian decoding of a `uint32`; fails when fewer than 4 bytes remain. -/
def decodeU32 : Bytes → Option (Nat × Bytes)
  | b0 :: b1 :: b2 :: b3 :: r => some (((b0 * 256 + b1) * 256 + b2) * 256 + b3, r)
  | _ => none

/-- Big-endian encoding of a `uint64` (8 bytes). -/
def encodeU64 (n : Nat) : Bytes :=
  [n / 72057594037927936 % 256, n / 281474976710656 % 256,
   n / 1099511627776 % 256, n / 4294967296 % 256,
   n / 16777216 % 256, n / 65536 % 256, n / 256 % 256, n % 256]

/-- Big-endian decoding of a `uint64`; fails when fewer than 8 bytes remain. -/
def decodeU64 : Bytes → Option (Nat × Bytes)
  | b0 :: b1 :: b2 :: b3 :: b4 :: b5 :: b6 :: b7 :: r =>
    some (((((((b0 * 256 + b1) * 256 + b2) * 256 + b3) * 256 + b4) * 256 + b5)
      * 256 + b6) * 256 + b7, r)
  | _ => none

/-- Big-endian two's-complement encoding of an `int64` (Go
`binary.Write(buf, binary.BigEndian, int64)`). -/
def encodeI64 (t : Int) : Bytes :=
  encodeU64 (t % (18446744073709551616 : Int)).toNat

/-- Big-endian two's-complement decoding of an `int64`. -/
def decodeI64 (data : Bytes) : Option (Int × Bytes) :=
  (decodeU64 data).map fun p =>
    (if p.1 < 9223372036854775808 then (p.1 : Int)
     else (p.1 : Int) - 18446744073709551616, p.2)

/-- Length-prefixed byte-slice encoding: `uint32 len` then the raw bytes. -/
def encodeBytes (b : Bytes) : Bytes := encodeU32 b.length ++ b

/-- Length-prefixed byte-slice decoding; fails when the buffer is short. -/
def decodeBytesFrom (data : Bytes) : Option (Bytes × Bytes) :=
  match decodeU32 data with
  | none => none
  | some (n, r) => if n ≤ r.length then some (r.take n, r.drop n) else none

/-- Length-prefixed string encoding; the protocol keys are ASCII so one
character corresponds to one wire byte. -/
def encodeString (s : String) : Bytes := encodeU32 s.length ++ s.data.map Char.toNat

/-- Length-prefixed string decoding. -/
def decodeStringFrom (data : Bytes) : Option (String × Bytes) :=
  (decodeBytesFrom data).map fun p => (String.mk (p.1.map Char.ofNat), p.2)

/-- Decode `n` consecutive length-prefixed strings (the key list loop of
`decodeKeysValuesAndTime` in `src/pkg/db/remoteRequest.go`). -/
def decodeStringsN : Nat → Bytes → Option (List String × Bytes)
  | 0, data => some ([], data)
  | n + 1, data =>
    match decodeStringFrom data with
    | none => none
    | some (s, r) =>
      match decodeStringsN n r with
      | none => none
      | some (ss, r2) => some (s :: ss, r2)

/-- Decode `n` consecutive length-prefixed byte slices (the value list loop of
`decodeKeysValuesAndTime`). -/
def decodeBytesListN : Nat → Bytes → Option (List Bytes × Bytes)
  | 0, data => some ([], data)
  | n + 1, data =>
    match decodeBytesFrom data with
    | none => none
    | some (b, r) =>
      match decodeBytesListN n r with
      | none => none
      | some (bs, r2) => some (b :: bs, r2)

/-! ### The request payload and its codec (`src/pkg/db/remoteRequest.go`) -/

/-- `requestPayload` from `src/pkg/db/remoteRequest.go`.  Go distinguishes a
nil slice from an empty one; `dbValues` and `sig` are therefore `Option`s,
`none` standing for Go `nil`. -/
structure RequestPayload where
  dbKeys : List String
  dbValues : Option (List Bytes)
  timestamp : Int
  sig : Option Bytes
deriving DecidableEq

/-- `encodeKeysValuesAndTime` from `src/pkg/db/remoteRequest.go`: timestamp,
then count-prefixed keys, then count-prefixed values; a nil values slice is
encoded as a zero count.  (The Go function reports an error for a nil key
slice; that case is unreachable from `encodeRequest`, which rejects nil and
empty key slices first, so the encoder is total here.) -/
def encodeKeysValuesAndTime (dbKeys : List String) (values : Option (List Bytes))
    (timestamp : Int) : Bytes :=
  encodeI64 timestamp ++ encodeU32 dbKeys.length ++
    (dbKeys.map encodeString).flatten ++
    (match values with
     | some vs => encodeU32 vs.length ++ (vs.map encodeBytes).flatten
     | none => encodeU32 0)

/-- `decodeKeysValuesAndTime` from `src/pkg/db/remoteRequest.go`.  Note that
the decoded value list is always a non-nil Go slice (`make([][]byte, len)`),
even when the encoded count is zero; the returned remainder models the bytes
left unread in the stream. -/
def decodeKeysValuesAndTime (data : Bytes) :
    Option (List String × List Bytes × Int × Bytes) :=
  match decodeI64 data with
  | none => none
  | some (t, r1) =>
  match decodeU32 r1 with
  | none => none
  | some (nk, r2) =>
  match decodeStringsN nk r2 with
  | none => none
  | some (keys, r3) =>
  match decodeU32 r3 with
  | none => none
  | some (nv, r4) =>
  match decodeBytesListN nv r4 with
  | none => none
  | some (vals, r5) => some (keys, vals, t, r5)

/-- `encodeRequest` from `src/pkg/db/remoteRequest.go`. -/
def encodeRequest (r : RequestPayload) : Except String Bytes :=
  if r.dbKeys.isEmpty then
    Except.error "No keys in request. No point in making a request if there are no keys"
  else
    match r.sig with
    | none => Except.error "Cannot encode a request without a signature attached"
    | some sig =>
      Except.ok (encodeKeysValuesAndTime r.dbKeys r.dbValues r.timestamp ++ encodeBytes sig)

/-- `decodeRequest` from `src/pkg/db/remoteRequest.go`.  The Go function
recomputes the keccak hash of the decoded fields and hands it, with the
timestamp and signature, to `validator.Verify`; the hash itself only feeds
the ECDSA address recovery, which has no shallow embedding, so the validator
is modelled as a function of the timestamp and signature. -/
def decodeRequest (verify : Int → Bytes → Except String Unit) (data : Bytes) :
    Except String RequestPayload :=
  match decodeKeysValuesAndTime data with
  | none => Except.error "problem decoding incoming request"
  | some (keys, vals, t, rest) =>
    if keys.length = 0 then Except.error "No dbKeys in incoming request"
    else
      match decodeBytesFrom rest with
      | none => Except.error "problem decoding signature"
      | some (sig, _) =>
        match verify t sig with
        | Except.error e => Except.error e
        | Except.ok _ => Except.ok ⟨keys, some vals, t, some sig⟩

/-- A validator that accepts every signature; used to state codec round-trip
facts independently of the whitelist state. -/
def acceptAllValidator : Int → Bytes → Except String Unit :=
  fun _ _ => Except.ok ()

/-! ### The data-server proxy (`remoteImpl` in `src/pkg/pow/miningSetup.go`)

`remoteImpl` keeps a whitelist of lowercased hex addresses and, per address, a
bounded LRU cache of recently seen request timestamps (`wlHistory`).  The
whitelist map — whose entries are always `true` — is modelled as the list of
its keys, and the per-address caches as an association list from address to
the list of cached timestamps (`Contains` is membership, `Add` prepends; the
LRU eviction policy of the 50-entry ARC cache only ever removes entries and
is not needed by any claim).  Wall-clock times and request timestamps are
unix seconds (`Int`). -/

/-- Per-address timestamp history (`wlHistory`). -/
abbrev Hist := List (String × List Int)

/-- Record a timestamp in the history of address `a` (`cache.Add`). -/
def histAdd (hist : Hist) (a : String) (ts : Int) : Hist :=
  hist.map fun p => if p.1 = a then (p.1, ts :: p.2) else p

/-- `_validityThreshold` from `src/pkg/pow/miningSetup.go` (seconds). -/
def validityThreshold : Int := 2

/-- `remoteImpl.Verify` from `src/pkg/pow/miningSetup.go`.  The Go function
recovers the signer address from the signature (`crypto.SigToPub` followed by
`crypto.PubkeyToAddress`, lowercased); that recovery has no shallow
embedding, so the recovered address `ashex` is a parameter.  `now` is the
value of `time.Now()` at the check, in unix seconds; `now.After(expr)` with
`expr = time.Unix(timestamp+_validityThreshold, 0)` is the strict comparison
`validityThreshold < now - timestamp`.  On success the timestamp is recorded
and the updated history is returned. -/
def Verify (wl : List String) (hist : Hist) (ashex : String) (timestamp now : Int) :
    Except String Hist :=
  if ¬ wl.contains ashex then Except.error "Unauthorized"
  else
    match hist.lookup ashex with
    | none => Except.error "No history found for address"
    | some cache =>
      if cache.contains timestamp then
        if validityThreshold < now - timestamp then Except.error "Request expired"
        else Except.ok (histAdd hist ashex timestamp)
      else Except.ok (histAdd hist ashex timestamp)

/-- Go `strings.HasPrefix(s, p)`: does `s` start with `p`?  Stated over the
character lists (Go compares the underlying bytes; the strings involved are
ASCII). -/
def strStartsWith (s p : String) : Bool :=
  p.data.isPrefixOf s.data

/-- `remoteImpl.hasAddressPrefix` from `src/pkg/pow/miningSetup.go`: the key
must start with one of the whitelisted addresses (not necessarily the
signer's). -/
def hasAddressPrefix (wl : List String) (key : String) : Bool :=
  wl.any fun k => strStartsWith key k

/-- Modelled from the spec: `isKnownKey` is referenced by
`remoteImpl.IncomingRequest` but is not among the provided source files.  Per
the spec (section 4.5), reads must belong to "a known-key set (a static
allow-list of oracle/chain-snapshot key patterns)"; the chain-snapshot keys
are listed in section 3.  The exact membership is irrelevant to the claims —
only that some keys are outside the set. -/
def isKnownKey (key : String) : Bool :=
  (["currentChallenge", "difficulty", "requestIds", "disputeStatus",
    "gasPrice", "slotIndex", "lastSubmit"].contains key) ||
    strStartsWith key "queriedValue_"

/-- The server's key-value store contents, for concrete runs. -/
abbrev KV := List (String × Bytes)

/-- The embedded store behind the proxy (`i.localDB`), an external interface
with fallible `Put`/`Get`; kept abstract so store failures can be exercised. -/
structure ProxyEnv where
  put : KV → String → Bytes → Except String KV
  get : KV → String → Except String (Option Bytes)

/-- The write loop of `remoteImpl.IncomingRequest` (`for idx, k := range
req.dbKeys`): keys are processed in index order; a key without a whitelisted
address prefix, or a failing `Put`, aborts the loop immediately, returning
the store as mutated so far together with the error message. -/
def writeLoop (env : ProxyEnv) (wl : List String) :
    KV → List (String × Bytes) → KV × Option String
  | kv, [] => (kv, none)
  | kv, (k, v) :: rest =>
    if ¬ hasAddressPrefix wl k then
      (kv, some "All remote data storage request keys must be prefixed with miner public Ethereum address")
    else
      match env.put kv k v with
      | Except.error e => (kv, some e)
      | Except.ok kv2 => writeLoop env wl kv2 rest

/-- The read loop of `remoteImpl.IncomingRequest`: for each key, reads with a
nil values slice must pass `isKnownKey`; a failing `Get` aborts with an
error; nil `Get` results are skipped, others are collected into the response
map (modelled as the association list in iteration order). -/
def readLoopGo (env : ProxyEnv) (valuesNil : Bool) (kv : KV) :
    List String → List (String × Bytes) → Except String (List (String × Bytes))
  | [], acc => Except.ok acc
  | k :: rest, acc =>
    if valuesNil ∧ ¬ isKnownKey k then Except.error ("Invalid lookup key: " ++ k)
    else
      match env.get kv k with
      | Except.error e => Except.error e
      | Except.ok none => readLoopGo env valuesNil kv rest acc
      | Except.ok (some bts) => readLoopGo env valuesNil kv rest (acc ++ [(k, bts)])

/-- The body of `remoteImpl.IncomingRequest` after a successful decode: the
write branch runs when the values slice is non-nil and non-empty (requiring
matching key/value counts and prefixed keys), then every key is read back;
the first component of the result is the store after any writes performed. -/
def processRequest (env : ProxyEnv) (wl : List String) (req : RequestPayload)
    (kv : KV) : KV × Except String (List (String × Bytes)) :=
  match req.dbValues with
  | some vals =>
    if 0 < vals.length then
      if req.dbKeys.length ≠ vals.length then
        (kv, Except.error "Keys and values must have the same array dimensions")
      else
        match writeLoop env wl kv (req.dbKeys.zip vals) with
        | (kv2, some e) => (kv2, Except.error e)
        | (kv2, none) => (kv2, readLoopGo env false kv2 req.dbKeys [])
    else (kv, readLoopGo env false kv req.dbKeys [])
  | none => (kv, readLoopGo env true kv req.dbKeys [])

/-- `remoteImpl.IncomingRequest` from `src/pkg/pow/miningSetup.go`: decode and
verify the signed request (with `signer` the address recovered from its
signature and `now` the verification time), then serve it.  An error response
(`errorResponse(...)`) is modelled as `Except.error`. -/
def incomingRequest (env : ProxyEnv) (wl : List String) (hist : Hist)
    (signer : String) (now : Int) (kv : KV) (data : Bytes) :
    KV × Except String (List (String × Bytes)) :=
  match decodeRequest (fun ts _sig => (Verify wl hist signer ts now).map fun _ => ()) data with
  | Except.error e => (kv, Except.error e)
  | Except.ok req => processRequest env wl req kv

/-- Association-list `Put`, a concrete always-succeeding store used for
witnesses and counterexamples. -/
def assocPut (kv : KV) (k : String) (v : Bytes) : KV :=
  (k, v) :: kv.filter fun p => ¬ p.1 = k

/-- Association-list `Get`. -/
def assocGet (kv : KV) (k : String) : Option Bytes :=
  (kv.find? fun p => p.1 = k).map Prod.snd

/-- A concrete `ProxyEnv` over the association-list store. -/
def listEnv : ProxyEnv :=
  ⟨fun kv k v => Except.ok (assocPut kv k v), fun kv k => Except.ok (assocGet kv k)⟩

/-- A concrete whitelisted address, shaped like the lowercased hex addresses
(`strings.ToLower(common.HexToAddress(a).Hex())`) that populate the server
whitelist. -/
def addrA : String := "0xaaaaaaaaaaaaaaaaaaaaaaaaaaaaaaaaaaaaaaaa"

/-- A second concrete whitelisted address. -/
def addrB : String := "0xbbbbbbbbbbbbbbbbbbbbbbbbbbbbbbbbbbbbbbbb"

/-! ### The mine command status gate (`mineCmd` in `src/unnamed/part_000`) -/

/-- Value of one hex digit character, `none` for non-hex characters. -/
def hexDigitVal (c : Char) : Option Nat :=
  if '0' ≤ c ∧ c ≤ '9' then some (c.toNat - 48)
  else if 'a' ≤ c ∧ c ≤ 'f' then some (c.toNat - 97 + 10)
  else if 'A' ≤ c ∧ c ≤ 'F' then some (c.toNat - 65 + 10)
  else none

/-- Parse a most-significant-first hex digit string. -/
def parseHexNat (cs : List Char) : Option Nat :=
  cs.foldl (fun acc c => acc.bind fun a => (hexDigitVal c).map fun d => a * 16 + d)
    (some 0)

/-- Semantics of go-ethereum `hexutil.DecodeBig` (an external library,
modelled from its documented behavior): the input must carry a `0x`/`0X`
prefix, have at least one and at most 64 hex digits, and — except for the
single digit `0` — no leading zero digit.  The empty string (a missing KV
value, Go `string(nil)`) fails. -/
def hexutilDecodeBig (s : String) : Option Int :=
  match s.data with
  | '0' :: x :: ds =>
    if x = 'x' ∨ x = 'X' then
      if ds.length = 0 then none
      else if 64 < ds.length then none
      else if ds.head? = some '0' ∧ 1 < ds.length then none
      else (parseHexNat ds).map fun n => (n : Int)
    else none
  | _ => none

/-- Outcome of the dispute-status gate at the start of `mineCmd`. -/
inductive MineStart where
  /-- A nil `*big.Int` is dereferenced (`status.Cmp`): runtime panic. -/
  | panics : MineStart
  /-- `cli.Exit` was called after printing the given line to stderr. -/
  | exits (stderrLine : String) (code : Int) : MineStart
  /-- Control reaches `ops.CreateMiningManager` / `miner.Start`. -/
  | starts : MineStart
deriving DecidableEq

/-- `ExitOnError` from `src/unnamed/part_000`: on a non-nil error, print
`"<operation> failed: <error>"` to stderr and exit with code `-1`. -/
def ExitOnError (err : Option String) (operation : String) : Option (String × Int) :=
  err.map fun m => (operation ++ " failed: " ++ m, -1)

/-- The dispute-status check at the top of `mineCmd` (`src/unnamed/part_000`
lines 265-280).  `v` is the KV value for `db.DisputeStatusKey` as a Go string
(the empty string when the key is missing); a `Get` error merely logs a
warning and falls through.  The decode error of `hexutil.DecodeBig` is
discarded (`status, _ := ...`), so a failed decode leaves `status` nil and
`status.Cmp(big.NewInt(1))` panics. -/
def mineStatusGate (v : String) : MineStart :=
  match hexutilDecodeBig v with
  | none => MineStart.panics
  | some status =>
    if status ≠ 1 then
      match ExitOnError (some "miner is not able to mine with current status") "checking miner" with
      | some (line, code) => MineStart.exits line code
      | none => MineStart.starts
    else MineStart.starts

/-! ### Config validation (`validateConfig` in `src/pkg/config/config.go`) -/

/-- Helper for `hexDecodeString`: consume hex digits two at a time. -/
def hexPairsAux : List Char → Option Bytes
  | [] => some []
  | [_] => none
  | c1 :: c2 :: rest =>
    match hexDigitVal c1, hexDigitVal c2, hexPairsAux rest with
    | some h, some l, some bs => some ((h * 16 + l) :: bs)
    | _, _, _ => none

/-- `encoding/hex.DecodeString`: succeeds exactly on even-length strings of
hex digits, producing one byte per digit pair. -/
def hexDecodeString (s : String) : Option Bytes :=
  hexPairsAux s.data

/-- The inputs read by `validateConfig`: the (already lowercased and
`0x`-stripped) `publicAddress`, the `NODE_URL` and `ETH_PRIVATE_KEY`
environment variables, and `gasMultiplier` (a `float32`, modelled as a
rational — all comparisons involved are exact). -/
structure ConfigView where
  publicAddress : String
  nodeURL : String
  privateKey : String
  gasMultiplier : ℚ
deriving DecidableEq

/-- `validateConfig` from `src/pkg/config/config.go`; `none` is a nil error
(acceptance).  Note the faithful `pkg/errors` semantics: `errors.Wrapf(err,
...)` returns nil when `err` is nil, so the branches taken when a hex decode
SUCCEEDS but yields the wrong length return a nil error — accepting the
config and skipping all later checks. -/
def validateConfig (c : ConfigView) : Option String :=
  match hexDecodeString c.publicAddress with
  | none => some "expecting 40 hex character public address"
  | some b =>
    if b.length ≠ 20 then none
    else if c.nodeURL = "" then some "missing nodeURL environment variable"
    else
      match hexDecodeString c.privateKey with
      | none => some "expecting 64 hex character private key"
      | some pk =>
        if pk.length ≠ 32 then none
        else if c.gasMultiplier < 0 ∨ 20 < c.gasMultiplier then
          some "gas multiplier out of range"
        else none

/-! ### HTTP fetch with retries (`src/pkg/util/httpRetriever.go`)

`_recReq` performs an HTTP round-trip per attempt and recurses until a 2xx
response or until `time.Now()` passes the expiration computed as the start
time plus the request `Timeout`.  The network and the clock are external:
a run is modelled as the (finite, for termination) list of attempt outcomes,
each paired with the value of `time.Now()` at that attempt's deadline check.
The 500 ms sleep between attempts happens between trace elements and needs no
explicit model. -/

/-- One HTTP attempt outcome: a transport error or a response. -/
inductive FetchOutcome where
  /-- `http.Get`/`http.Post` returned a non-nil error. -/
  | netErr (msg : String) : FetchOutcome
  /-- A response with the given status code and body. -/
  | resp (status : Nat) (body : Bytes) : FetchOutcome
deriving DecidableEq

/-- Whether an outcome takes the retry path of `_recReq` (transport error or
status outside 200-299). -/
def isTransientShape : FetchOutcome → Bool
  | FetchOutcome.netErr _ => true
  | FetchOutcome.resp s _ => decide (s < 200) || decide (299 < s)

/-- `_recReq` from `src/pkg/util/httpRetriever.go` over an attempt trace.
On a transport error or a non-2xx status: pass the error up if `now` is
strictly after `expiration`, otherwise sleep 500 ms and retry.  A 2xx
response returns the body unconditionally.  An exhausted trace (the real
recursion would perform another attempt) yields an error marker. -/
def recReq (expiration : Int) : List (FetchOutcome × Int) → Except String Bytes
  | [] => Except.error "trace exhausted"
  | (o, now) :: rest =>
    match o with
    | FetchOutcome.netErr m =>
      if expiration < now then Except.error m else recReq expiration rest
    | FetchOutcome.resp s body =>
      if s < 200 ∨ 299 < s then
        if expiration < now then
          Except.error ("giving up fetch request after request timeout: " ++ toString s)
        else recReq expiration rest
      else Except.ok body

/-- `HTTPWithRetries`: the expiration is the start time plus the request
`Timeout`. -/
def HTTPWithRetries (timeout start : Int) (trace : List (FetchOutcome × Int)) :
    Except String Bytes :=
  recReq (start + timeout) trace

/-! ## Theorems -/

/-- C1 — counterexample.  The claim asserts that an accepted request's
timestamp is never already in the signer's ring buffer, and that resending
the same bytes inside the validity window is rejected.  In the code,
`Verify` accepts a replayed timestamp while `now` is still within
`timestamp + _validityThreshold`: here the whitelisted signer's history
already contains timestamp `1000`, the resend happens at `now = 1001`
(inside the 2-second window), and `Verify` succeeds. -/
theorem verify_accepts_replayed_timestamp :
    (Verify [addrA] [(addrA, [1000])] addrA 1000 1001).isOk = true ∧
      ((([(addrA, [(1000 : Int)])] : Hist).lookup addrA).getD []).contains 1000 = true := by
  exact ⟨by decide, by decide⟩

/-- C1 — amended: when the recovered signer is whitelisted and its history
cache contains the request timestamp (a replay), `Verify` succeeds exactly
when `now` has not passed `timestamp + _validityThreshold`; an in-window
replay is accepted and processed, only a past-window replay is rejected. -/
theorem verify_replay_window_iff (wl : List String) (hist : Hist) (a : String)
    (ts now : Int) (cache : List Int)
    (hwl : wl.contains a = true) (hc : hist.lookup a = some cache)
    (hmem : cache.contains ts = true) :
    (Verify wl hist a ts now).isOk = true ↔ now ≤ ts + validityThreshold := by
  have hwl2 : a ∈ wl := by simpa using hwl
  have hmem2 : ts ∈ cache := by simpa using hmem
  by_cases h : (2 : Int) < now - ts
  · simp only [Verify, validityThreshold] at *
    simp [hwl2, hc, hmem2, h, Except.isOk, Except.toBool]
    omega
  · simp only [Verify, validityThreshold] at *
    simp [hwl2, hc, hmem2, h, Except.isOk, Except.toBool]
    omega

/-- C1 — witness for `verify_replay_window_iff`. -/
theorem verify_replay_window_iff_witness :
    (Verify [addrA] [(addrA, [5])] addrA 5 6).isOk = true :=
  (verify_replay_window_iff [addrA] [(addrA, [5])] addrA 5 6 [5]
    (by decide) (by decide) (by decide)).mpr (by decide)

/-- C3 — counterexample.  The claim asserts that any request older than the
validity threshold is rejected regardless of replay status.  In the code the
expiry check only runs when the timestamp is already in the signer's cache:
a first-seen timestamp `1000` delivered at `now = 1003` (one second past the
window) is accepted. -/
theorem verify_accepts_fresh_expired_timestamp :
    (Verify [addrA] [(addrA, [])] addrA 1000 1003).isOk = true ∧
      validityThreshold < 1003 - 1000 := by
  exact ⟨by decide, by decide⟩

/-- C3 — amended: for a whitelisted signer with an existing history cache,
the expiry comparison `now - timestamp > _validityThreshold` is applied only
when the timestamp is already cached; a first-seen timestamp is accepted (and
recorded) at any age, while a cached (replayed) timestamp past the window is
rejected with "Request expired". -/
theorem verify_expiry_checked_only_on_replay (wl : List String) (hist : Hist)
    (a : String) (ts now : Int) (cache : List Int)
    (hwl : wl.contains a = true) (hc : hist.lookup a = some cache) :
    (cache.contains ts = false →
      Verify wl hist a ts now = Except.ok (histAdd hist a ts)) ∧
    (cache.contains ts = true → validityThreshold < now - ts →
      Verify wl hist a ts now = Except.error "Request expired") := by
  have hwl2 : a ∈ wl := by simpa using hwl
  constructor
  · intro hfresh
    have hfresh2 : ts ∉ cache := by simpa using hfresh
    simp [Verify, hwl2, hc, hfresh2]
  · intro hmem hexp
    have hmem2 : ts ∈ cache := by simpa using hmem
    simp [Verify, hwl2, hc, hmem2, hexp]

/-- C3 — witness for `verify_expiry_checked_only_on_replay`. -/
theorem verify_expiry_checked_only_on_replay_witness :
    Verify [addrA] [(addrA, [])] addrA 1000 1003 =
      Except.ok (histAdd [(addrA, [])] addrA 1000) :=
  (verify_expiry_checked_only_on_replay [addrA] [(addrA, [])] addrA 1000 1003 []
    (by decide) (by decide)).1 (by decide)

/-- C6: when the dispute-status value decodes to a big integer different
from 1, `mineCmd` goes through `ExitOnError`, printing
"checking miner failed: miner is not able to mine with current status" to
stderr and exiting with code `-1`, without reaching
`ops.CreateMiningManager`. -/
theorem mine_status_not_one_exits (v : String) (status : Int)
    (hdec : hexutilDecodeBig v = some status) (hne : status ≠ 1) :
    mineStatusGate v =
      MineStart.exits
        "checking miner failed: miner is not able to mine with current status" (-1) := by
  simp [mineStatusGate, hdec, hne, ExitOnError]

/-- C6 — witness: dispute status `0x0` at the start of `mine`. -/
theorem mine_status_not_one_exits_witness :
    mineStatusGate "0x0" =
      MineStart.exits
        "checking miner failed: miner is not able to mine with current status" (-1) :=
  mine_status_not_one_exits "0x0" 0 (by decide) (by decide)

/-- C9: when the dispute-status value is missing or does not decode
(`hexutil.DecodeBig` fails), `mineCmd` discards the error and calls
`status.Cmp` on a nil `*big.Int`: a runtime panic rather than the structured
`ExitOnError` path. -/
theorem mine_status_decode_failure_panics (v : String)
    (hdec : hexutilDecodeBig v = none) :
    mineStatusGate v = MineStart.panics := by
  simp [mineStatusGate, hdec]

/-- C9 — witness: a missing KV value (`string(nil)` is the empty string). -/
theorem mine_status_decode_failure_panics_witness :
    mineStatusGate "" = MineStart.panics :=
  mine_status_decode_failure_panics "" (by decide)

/-- C8: `validateConfig` is claimed to reject any configuration whose
`publicAddress` is not exactly 40 hex characters.  In the code the
wrong-length branch returns `errors.Wrapf(err, ...)` with a nil `err`, which
`pkg/errors` turns into a nil error: the two-character address "ab"
hex-decodes to the single byte `0xab`, yet `validateConfig` returns nil
(acceptance), also skipping the `NODE_URL`, private-key and gas-multiplier
checks (all violated here). -/
theorem validateConfig_accepts_short_public_address :
    validateConfig ⟨"ab", "", "", 0⟩ = none ∧
      hexDecodeString "ab" = some [171] ∧ (171 : Nat) ≠ 20 := by
  exact ⟨by rfl, by rfl, by decide⟩

/-- C2: reads are claimed to be restricted to the known-key allow-list.  The
guard in `IncomingRequest` is `req.dbValues == nil && !isKnownKey(k)`, but
`decodeKeysValuesAndTime` always builds the values slice with
`make([][]byte, len)` — non-nil even for a zero count — so the guard never
fires for requests arriving over the wire.  Here a whitelisted signer sends
a legitimately encoded read request (zero values) for the key "evil", which
is outside the allow-list; the server serves its value instead of
rejecting. -/
theorem incoming_read_serves_unknown_key :
    incomingRequest listEnv [addrA] [(addrA, [])] addrA 1000 [("evil", [42])]
        (encodeKeysValuesAndTime ["evil"] none 1000 ++ encodeBytes [1]) =
      ([("evil", [42])], Except.ok [("evil", [42])]) ∧
    isKnownKey "evil" = false ∧
    encodeRequest ⟨["evil"], none, 1000, some [1]⟩ =
      Except.ok (encodeKeysValuesAndTime ["evil"] none 1000 ++ encodeBytes [1]) := by
  exact ⟨by rfl, by decide, by rfl⟩

/-- C4 — counterexample.  The claim requires every written key to begin with
the prefix of the SIGNER recovered from the signature.  `hasAddressPrefix`
checks the key against every whitelist entry instead: with whitelist
`[addrA, addrB]` and signer `addrA`, a write whose key is prefixed by
`addrB` is accepted and stored, although it does not start with the
signer's address. -/
theorem write_accepted_with_other_whitelisted_prefix :
    incomingRequest listEnv [addrA, addrB] [(addrA, [])] addrA 1000 []
        (encodeKeysValuesAndTime [addrB ++ "-k"] (some [[7]]) 1000 ++ encodeBytes [2]) =
      ([(addrB ++ "-k", [7])], Except.ok [(addrB ++ "-k", [7])]) ∧
    strStartsWith (addrB ++ "-k") addrA = false ∧ addrA ≠ addrB := by
  exact ⟨by rfl, by decide, by decide⟩

/-- A successful write loop implies every processed key passed
`hasAddressPrefix`. -/
theorem writeLoop_ok_keys (env : ProxyEnv) (wl : List String) :
    ∀ (pairs : List (String × Bytes)) (kv kv2 : KV),
      writeLoop env wl kv pairs = (kv2, none) →
      ∀ p ∈ pairs, hasAddressPrefix wl p.1 = true := by
  intro pairs
  induction pairs with
  | nil => intro kv kv2 _ p hp; cases hp
  | cons hd tl ih =>
    intro kv kv2 hw p hp
    obtain ⟨k, v⟩ := hd
    simp only [writeLoop] at hw
    by_cases hpref : hasAddressPrefix wl k
    · simp only [hpref, Bool.true_eq_false, not_true_eq_false, if_false,
        Bool.not_true, reduceIte] at hw
      cases hput : env.put kv k v with
      | error e => rw [hput] at hw; simp at hw
      | ok kv3 =>
        rw [hput] at hw
        rcases List.mem_cons.1 hp with rfl | hp2
        · simpa using hpref
        · exact ih kv3 kv2 hw p hp2
    · simp [hpref] at hw

/-- Running the write loop past an already successful prefix continues from
the store that prefix produced. -/
theorem writeLoop_append_none (env : ProxyEnv) (wl : List String) :
    ∀ (pre rest : List (String × Bytes)) (kv kv0 : KV),
      writeLoop env wl kv pre = (kv0, none) →
      writeLoop env wl kv (pre ++ rest) = writeLoop env wl kv0 rest := by
  intro pre
  induction pre with
  | nil =>
    intro rest kv kv0 h
    simp only [writeLoop, Prod.mk.injEq] at h
    obtain ⟨rfl, -⟩ := h
    simp
  | cons hd tl ih =>
    intro rest kv kv0 h
    obtain ⟨k, v⟩ := hd
    simp only [writeLoop] at h
    simp only [List.cons_append, writeLoop]
    by_cases hpref : hasAddressPrefix wl k
    · rw [if_neg (by simp [hpref])] at h
      rw [if_neg (by simp [hpref])]
      cases hput : env.put kv k v with
      | error e => rw [hput] at h; simp at h
      | ok kv3 =>
        rw [hput] at h
        exact ih rest kv3 kv0 h
    · rw [if_pos (by simp [hpref])] at h
      simp at h

/-- A pair whose key fails the prefix check, or whose `Put` fails, aborts the
write loop at once, leaving the store untouched by it. -/
theorem writeLoop_head_fails (env : ProxyEnv) (wl : List String)
    (kv0 : KV) (k : String) (v : Bytes) (post : List (String × Bytes))
    (hfail : hasAddressPrefix wl k = false ∨ ∃ e, env.put kv0 k v = Except.error e) :
    ∃ msg, writeLoop env wl kv0 ((k, v) :: post) = (kv0, some msg) := by
  rcases hfail with hpref | ⟨e, hput⟩
  · refine ⟨"All remote data storage request keys must be prefixed with miner public Ethereum address", ?_⟩
    simp [writeLoop, hpref]
  · by_cases hpref : hasAddressPrefix wl k
    · refine ⟨e, ?_⟩
      simp [writeLoop, hpref, hput]
    · refine ⟨"All remote data storage request keys must be prefixed with miner public Ethereum address", ?_⟩
      simp [writeLoop, hpref]

/-- A write request served without error has every key prefixed by some
whitelisted address. -/
theorem processRequest_ok_keys (env : ProxyEnv)
    (wl : List String) (req : RequestPayload) (kv kv2 : KV) (vs : List Bytes)
    (out : List (String × Bytes))
    (hvals : req.dbValues = some vs) (hne : vs ≠ [])
    (hacc : processRequest env wl req kv = (kv2, Except.ok out)) :
    ∀ k ∈ req.dbKeys, ∃ a ∈ wl, strStartsWith k a = true := by
  have hlen : 0 < vs.length := by
    cases vs with
    | nil => exact absurd rfl hne
    | cons b l => simp
  by_cases hdim : req.dbKeys.length = vs.length
  · simp only [processRequest, hvals, hlen, if_true, hdim, ne_eq,
      not_true_eq_false, if_false, reduceIte] at hacc
    rcases hw : writeLoop env wl kv (req.dbKeys.zip vs) with ⟨kv3, e?⟩
    rw [hw] at hacc
    cases e? with
    | some e => simp at hacc
    | none =>
      intro k hk
      obtain ⟨i, hi, rfl⟩ := List.mem_iff_getElem.1 hk
      have hiv : i < vs.length := by omega
      have hi2 : i < (req.dbKeys.zip vs).length := by
        simp only [List.length_zip]; omega
      have hz : (req.dbKeys.zip vs)[i] = (req.dbKeys[i], vs[i]) :=
        List.getElem_zip
      have hmemz : (req.dbKeys[i], vs[i]) ∈ req.dbKeys.zip vs :=
        hz ▸ List.getElem_mem hi2
      have hpref := writeLoop_ok_keys env wl _ kv kv3 hw _ hmemz
      simpa [hasAddressPrefix, List.any_eq_true] using hpref
  · simp [processRequest, hvals, hlen, hdim] at hacc

/-- C4 — amended: every key of a write request whose writes the server
performs (non-nil, non-empty values slice, non-error response) begins with
the address prefix of SOME whitelisted address — the signer's own prefix is
not singled out; conversely a write request containing a key prefixed by no
whitelisted address is answered with an error response. -/
theorem write_keys_match_whitelist (env : ProxyEnv)
    (wl : List String) (req : RequestPayload) (kv : KV) (vs : List Bytes)
    (hvals : req.dbValues = some vs) (hne : vs ≠ []) :
    (∀ kv2 out, processRequest env wl req kv = (kv2, Except.ok out) →
      ∀ k ∈ req.dbKeys, ∃ a ∈ wl, strStartsWith k a = true) ∧
    ((∃ k ∈ req.dbKeys, ∀ a ∈ wl, strStartsWith k a = false) →
      ∃ kv3 msg, processRequest env wl req kv = (kv3, Except.error msg)) := by
  constructor
  · intro kv2 out hacc
    exact processRequest_ok_keys env wl req kv kv2 vs out hvals hne hacc
  · rintro ⟨k, hk, hbad⟩
    rcases hres : processRequest env wl req kv with ⟨kv3, res⟩
    cases res with
    | ok out =>
      obtain ⟨a, ha, htrue⟩ :=
        processRequest_ok_keys env wl req kv kv3 vs out hvals hne hres k hk
      rw [hbad a ha] at htrue
      cases htrue
    | error msg => exact ⟨kv3, msg, rfl⟩

/-- C4 — witness for `write_keys_match_whitelist`. -/
theorem write_keys_match_whitelist_witness :
    ∃ a ∈ [addrA], strStartsWith (addrA ++ "-x") a = true :=
  (write_keys_match_whitelist listEnv [addrA]
    ⟨[addrA ++ "-x"], some [[1]], 0, some [1]⟩ [] [[1]]
    rfl (by decide)).1
    [(addrA ++ "-x", [1])] [(addrA ++ "-x", [1])]
    (by rfl) (addrA ++ "-x") (by simp)

/-- C10: within a write request the server writes strictly in index order
and stops at the first failure — when the pairs split as
`pre ++ (k, v) :: post` with `pre` fully written (yielding store `kv0`) and
`(k, v)` failing the prefix check or the `Put`, the response is an error and
the final store is exactly `kv0`: the earlier pairs remain written, `(k, v)`
and everything after it is not. -/
theorem write_stops_at_first_failure (env : ProxyEnv) (wl : List String)
    (req : RequestPayload) (kv kv0 : KV) (vs : List Bytes)
    (pre post : List (String × Bytes)) (k : String) (v : Bytes)
    (hvals : req.dbValues = some vs)
    (hdim : req.dbKeys.length = vs.length) (hne : vs ≠ [])
    (hzip : req.dbKeys.zip vs = pre ++ (k, v) :: post)
    (hpre : writeLoop env wl kv pre = (kv0, none))
    (hfail : hasAddressPrefix wl k = false ∨ ∃ e, env.put kv0 k v = Except.error e) :
    ∃ msg, processRequest env wl req kv = (kv0, Except.error msg) := by
  have hlen : 0 < vs.length := by
    cases vs with
    | nil => exact absurd rfl hne
    | cons b l => simp
  obtain ⟨msg, hmsg⟩ := writeLoop_head_fails env wl kv0 k v post hfail
  have hall : writeLoop env wl kv (req.dbKeys.zip vs) = (kv0, some msg) := by
    rw [hzip, writeLoop_append_none env wl pre _ kv kv0 hpre, hmsg]
  exact ⟨msg, by simp [processRequest, hvals, hlen, hdim, hall]⟩

/-- C10 — witness for `write_stops_at_first_failure`: of three pairs the
second fails the prefix check; only the first remains written. -/
theorem write_stops_at_first_failure_witness :
    ∃ msg, processRequest listEnv [addrA]
        ⟨[addrA ++ "-x", "bad", addrA ++ "-y"], some [[1], [2], [3]], 0, some [1]⟩ [] =
      ([(addrA ++ "-x", [1])], Except.error msg) :=
  write_stops_at_first_failure listEnv [addrA]
    ⟨[addrA ++ "-x", "bad", addrA ++ "-y"], some [[1], [2], [3]], 0, some [1]⟩
    [] [(addrA ++ "-x", [1])] [[1], [2], [3]]
    [(addrA ++ "-x", [1])] [(addrA ++ "-y", [3])] "bad" [2]
    rfl (by decide) (by decide) (by rfl) (by rfl) (Or.inl (by decide))

/-- Decoding inverts the big-endian `uint32` codec on values below `2^32`. -/
theorem decodeU32_encodeU32 (n : Nat) (h : n < 4294967296) :
    ∀ r, decodeU32 (encodeU32 n ++ r) = some (n, r) := by
  intro r
  simp only [encodeU32, List.cons_append, List.nil_append, decodeU32,
    Option.some.injEq, Prod.mk.injEq]
  exact ⟨by omega, by trivial⟩

/-- Decoding inverts the big-endian `uint64` codec on values below `2^64`. -/
theorem decodeU64_encodeU64 (n : Nat) (h : n < 18446744073709551616) :
    ∀ r, decodeU64 (encodeU64 n ++ r) = some (n, r) := by
  intro r
  simp only [encodeU64, List.cons_append, List.nil_append, decodeU64,
    Option.some.injEq, Prod.mk.injEq]
  exact ⟨by omega, by trivial⟩

/-- Decoding inverts the two's-complement `int64` codec on the `int64`
range. -/
theorem decodeI64_encodeI64 (t : Int) (h1 : -9223372036854775808 ≤ t)
    (h2 : t < 9223372036854775808) :
    ∀ r, decodeI64 (encodeI64 t ++ r) = some (t, r) := by
  intro r
  have hb : (t % (18446744073709551616 : Int)).toNat < 18446744073709551616 := by
    omega
  simp only [encodeI64, decodeI64, decodeU64_encodeU64 _ hb r, Option.map_some',
    Option.some.injEq, Prod.mk.injEq]
  refine ⟨?_, by trivial⟩
  split
  · rename_i hsmall
    omega
  · rename_i hbig
    omega

/-- Decoding inverts the length-prefixed byte-slice codec. -/
theorem decodeBytesFrom_encodeBytes (b : Bytes) (h : b.length < 4294967296) :
    ∀ r, decodeBytesFrom (encodeBytes b ++ r) = some (b, r) := by
  intro r
  simp only [encodeBytes, List.append_assoc, decodeBytesFrom,
    decodeU32_encodeU32 _ h]
  rw [if_pos (by simp)]
  rw [List.take_left, List.drop_left]

/-- Mapping a character to its code point and back is the identity. -/
theorem map_ofNat_toNat (d : List Char) :
    List.map Char.ofNat (List.map Char.toNat d) = d := by
  induction d with
  | nil => rfl
  | cons c cs ih => simp only [List.map_cons, Char.ofNat_toNat, ih]

/-- Decoding inverts the length-prefixed string codec. -/
theorem decodeStringFrom_encodeString (s : String) (h : s.length < 4294967296) :
    ∀ r, decodeStringFrom (encodeString s ++ r) = some (s, r) := by
  intro r
  obtain ⟨d⟩ := s
  have hb : (d.map Char.toNat).length < 4294967296 := by
    simpa [String.length] using h
  have he : encodeString ⟨d⟩ ++ r = encodeBytes (d.map Char.toNat) ++ r := by
    simp [encodeString, encodeBytes, String.length]
  rw [decodeStringFrom, he, decodeBytesFrom_encodeBytes _ hb]
  simp only [Option.map_some', map_ofNat_toNat]

/-- Decoding inverts the concatenated key-list codec. -/
theorem decodeStringsN_flatten (ks : List String)
    (h : ∀ k ∈ ks, k.length < 4294967296) :
    ∀ r, decodeStringsN ks.length ((ks.map encodeString).flatten ++ r) =
      some (ks, r) := by
  induction ks with
  | nil => intro r; simp [decodeStringsN]
  | cons k ks ih =>
    intro r
    have hk : k.length < 4294967296 := h k (List.mem_cons_self k ks)
    have hks : ∀ x ∈ ks, x.length < 4294967296 :=
      fun x hx => h x (List.mem_cons_of_mem k hx)
    simp only [List.map_cons, List.flatten_cons, List.length_cons,
      List.append_assoc, decodeStringsN, decodeStringFrom_encodeString k hk,
      ih hks]

/-- Decoding inverts the concatenated value-list codec. -/
theorem decodeBytesListN_flatten (vs : List Bytes)
    (h : ∀ v ∈ vs, v.length < 4294967296) :
    ∀ r, decodeBytesListN vs.length ((vs.map encodeBytes).flatten ++ r) =
      some (vs, r) := by
  induction vs with
  | nil => intro r; simp [decodeBytesListN]
  | cons v vs ih =>
    intro r
    have hv : v.length < 4294967296 := h v (List.mem_cons_self v vs)
    have hvs : ∀ x ∈ vs, x.length < 4294967296 :=
      fun x hx => h x (List.mem_cons_of_mem v hx)
    simp only [List.map_cons, List.flatten_cons, List.length_cons,
      List.append_assoc, decodeBytesListN, decodeBytesFrom_encodeBytes v hv,
      ih hvs]

/-- Decoding inverts `encodeKeysValuesAndTime`, except that a nil values
slice comes back as an empty (non-nil) one. -/
theorem decodeKVT_encodeKVT (ks : List String) (vals : Option (List Bytes))
    (t : Int) (hks : ks.length < 4294967296)
    (hk : ∀ k ∈ ks, k.length < 4294967296)
    (hv : ∀ vs, vals = some vs →
      vs.length < 4294967296 ∧ ∀ v ∈ vs, v.length < 4294967296)
    (ht1 : -9223372036854775808 ≤ t) (ht2 : t < 9223372036854775808) :
    ∀ r, decodeKeysValuesAndTime (encodeKeysValuesAndTime ks vals t ++ r) =
      some (ks, vals.getD [], t, r) := by
  intro r
  cases vals with
  | none =>
    simp only [encodeKeysValuesAndTime, List.append_assoc,
      decodeKeysValuesAndTime, decodeI64_encodeI64 t ht1 ht2,
      decodeU32_encodeU32 _ hks, decodeStringsN_flatten ks hk,
      decodeU32_encodeU32 0 (by omega), Option.getD]
    rfl
  | some vs =>
    obtain ⟨hvs1, hvs2⟩ := hv vs rfl
    simp only [encodeKeysValuesAndTime, List.append_assoc,
      decodeKeysValuesAndTime, decodeI64_encodeI64 t ht1 ht2,
      decodeU32_encodeU32 _ hks, decodeStringsN_flatten ks hk,
      decodeU32_encodeU32 _ hvs1, decodeBytesListN_flatten vs hvs2,
      Option.getD]

/-- C5 — counterexample.  The claimed round-trip `decode(encode(req)) = req`
fails for a well-formed request carrying a nil values list: the decoder
always materialises a non-nil values slice, so the nil-ness is lost (and
this distinction is observable — `IncomingRequest` branches on
`req.dbValues == nil`). -/
theorem roundtrip_loses_nil_values :
    ∃ data,
      encodeRequest ⟨["k"], none, 7, some [9]⟩ = Except.ok data ∧
      decodeRequest acceptAllValidator data =
        Except.ok ⟨["k"], some [], 7, some [9]⟩ ∧
      decodeRequest acceptAllValidator data ≠
        Except.ok ⟨["k"], none, 7, some [9]⟩ := by
  refine ⟨encodeKeysValuesAndTime ["k"] none 7 ++ encodeBytes [9], by rfl, by rfl, ?_⟩
  intro hcontra
  have h1 : decodeRequest acceptAllValidator
      (encodeKeysValuesAndTime ["k"] none 7 ++ encodeBytes [9]) =
      Except.ok ⟨["k"], some [], 7, some [9]⟩ := by rfl
  rw [h1] at hcontra
  have h2 := Except.ok.inj hcontra
  have h3 : (some [] : Option (List Bytes)) = none := congrArg RequestPayload.dbValues h2
  cases h3

/-- C5 — amended: for every well-formed request (non-empty key list, non-nil
signature, representable lengths and timestamp), decoding the encoding
returns the same keys in order, the same timestamp and the same signature
bytes, and a values list with the same contents — with a nil values list
coming back as an empty non-nil one, so full payload equality holds exactly
when the original values list is non-nil. -/
theorem encode_decode_roundtrip (r : RequestPayload) (s : Bytes)
    (hsig : r.sig = some s) (hne : r.dbKeys ≠ [])
    (hks : r.dbKeys.length < 4294967296)
    (hk : ∀ k ∈ r.dbKeys, k.length < 4294967296)
    (hv : ∀ vs, r.dbValues = some vs →
      vs.length < 4294967296 ∧ ∀ v ∈ vs, v.length < 4294967296)
    (hs : s.length < 4294967296)
    (ht1 : -9223372036854775808 ≤ r.timestamp)
    (ht2 : r.timestamp < 9223372036854775808) :
    ∃ data, encodeRequest r = Except.ok data ∧
      decodeRequest acceptAllValidator data =
        Except.ok ⟨r.dbKeys, some (r.dbValues.getD []), r.timestamp, some s⟩ := by
  refine ⟨encodeKeysValuesAndTime r.dbKeys r.dbValues r.timestamp ++ encodeBytes s,
    ?_, ?_⟩
  · simp [encodeRequest, hsig, List.isEmpty_iff, hne]
  · have hlen : ¬ r.dbKeys.length = 0 := by
      intro h0
      exact hne (List.length_eq_zero.1 h0)
    have hsd : decodeBytesFrom (encodeBytes s) = some (s, []) := by
      simpa using decodeBytesFrom_encodeBytes s hs []
    simp only [decodeRequest,
      decodeKVT_encodeKVT r.dbKeys r.dbValues r.timestamp hks hk hv ht1 ht2,
      hsd, hlen, if_false, acceptAllValidator, reduceIte]

/-- C5 — witness for `encode_decode_roundtrip`: a request with a non-nil
values list round-trips to itself. -/
theorem encode_decode_roundtrip_witness :
    ∃ data, encodeRequest ⟨["k"], some [[5]], 7, some [9]⟩ = Except.ok data ∧
      decodeRequest acceptAllValidator data =
        Except.ok ⟨["k"], some [[5]], 7, some [9]⟩ :=
  encode_decode_roundtrip ⟨["k"], some [[5]], 7, some [9]⟩ [9]
    rfl (by decide) (by decide) (by decide)
    (by intro vs hvs; cases hvs; exact ⟨by decide, by decide⟩)
    (by decide) (by decide) (by decide)

/-- C7 — counterexample.  The claim treats every non-200 status as transient
(to be retried) and allows a success body only for status 200.  The code
accepts the whole 2xx range: a 201 response is returned as success
immediately — it is neither retried (the later 200 in the trace is never
reached) nor rejected. -/
theorem non_200_response_returned_as_success :
    recReq 100 [(FetchOutcome.resp 201 [9], 0), (FetchOutcome.resp 200 [7], 1)] =
      Except.ok [9] ∧ (201 : Nat) ≠ 200 := by
  exact ⟨by rfl, by decide⟩

/-- `recReq` succeeds with body `b` exactly when the trace has a first 2xx
response, carrying `b`, preceded only by transient attempts (transport
errors or non-2xx statuses) observed at or before the expiration. -/
theorem recReq_ok_iff (exp : Int) :
    ∀ (trace : List (FetchOutcome × Int)) (b : Bytes),
      recReq exp trace = Except.ok b ↔
        ∃ pre s now post,
          trace = pre ++ (FetchOutcome.resp s b, now) :: post ∧
          200 ≤ s ∧ s ≤ 299 ∧
          ∀ x ∈ pre, isTransientShape x.1 = true ∧ x.2 ≤ exp := by
  intro trace
  induction trace with
  | nil =>
    intro b
    constructor
    · intro h; cases h
    · rintro ⟨pre, s, now, post, hemp, -⟩
      exact absurd hemp (by simp)
  | cons hd rest ih =>
    intro b
    obtain ⟨o, now⟩ := hd
    cases o with
    | netErr m =>
      by_cases htime : exp < now
      · simp only [recReq, if_pos htime]
        constructor
        · intro h; cases h
        · rintro ⟨pre, s, now2, post, heq, hs1, hs2, hpre⟩
          cases pre with
          | nil => simp at heq
          | cons p ps =>
            simp only [List.cons_append, List.cons.injEq] at heq
            obtain ⟨hp, -⟩ := heq
            have h2 := (hpre p (by simp)).2
            rw [← hp] at h2
            omega
      · simp only [recReq, if_neg htime]
        rw [ih b]
        constructor
        · rintro ⟨pre, s, now2, post, rfl, hs1, hs2, hpre⟩
          refine ⟨(FetchOutcome.netErr m, now) :: pre, s, now2, post, by simp,
            hs1, hs2, ?_⟩
          intro x hx
          rcases List.mem_cons.1 hx with rfl | hx2
          · exact ⟨rfl, by omega⟩
          · exact hpre x hx2
        · rintro ⟨pre, s, now2, post, heq, hs1, hs2, hpre⟩
          cases pre with
          | nil => simp at heq
          | cons p ps =>
            simp only [List.cons_append, List.cons.injEq] at heq
            obtain ⟨-, hrest⟩ := heq
            exact ⟨ps, s, now2, post, hrest, hs1, hs2,
              fun x hx => hpre x (by simp [hx])⟩
    | resp st body =>
      by_cases hst : st < 200 ∨ 299 < st
      · by_cases htime : exp < now
        · simp only [recReq, if_pos hst, if_pos htime]
          constructor
          · intro h; cases h
          · rintro ⟨pre, s, now2, post, heq, hs1, hs2, hpre⟩
            cases pre with
            | nil =>
              simp only [List.nil_append, List.cons.injEq, Prod.mk.injEq] at heq
              obtain ⟨⟨heqo, -⟩, -⟩ := heq
              injection heqo with h1 h2
              omega
            | cons p ps =>
              simp only [List.cons_append, List.cons.injEq] at heq
              obtain ⟨hp, -⟩ := heq
              have h2 := (hpre p (by simp)).2
              rw [← hp] at h2
              omega
        · simp only [recReq, if_pos hst, if_neg htime]
          rw [ih b]
          constructor
          · rintro ⟨pre, s, now2, post, rfl, hs1, hs2, hpre⟩
            refine ⟨(FetchOutcome.resp st body, now) :: pre, s, now2, post,
              by simp, hs1, hs2, ?_⟩
            intro x hx
            rcases List.mem_cons.1 hx with rfl | hx2
            · refine ⟨?_, by omega⟩
              simp only [isTransientShape, Bool.or_eq_true, decide_eq_true_eq]
              omega
            · exact hpre x hx2
          · rintro ⟨pre, s, now2, post, heq, hs1, hs2, hpre⟩
            cases pre with
            | nil =>
              simp only [List.nil_append, List.cons.injEq, Prod.mk.injEq] at heq
              obtain ⟨⟨heqo, -⟩, -⟩ := heq
              injection heqo with h1 h2
              omega
            | cons p ps =>
              simp only [List.cons_append, List.cons.injEq] at heq
              obtain ⟨-, hrest⟩ := heq
              exact ⟨ps, s, now2, post, hrest, hs1, hs2,
                fun x hx => hpre x (by simp [hx])⟩
      · simp only [recReq, if_neg hst]
        constructor
        · intro h
          injection h with hb
          exact ⟨[], st, now, rest, by simp [hb], by omega, by omega, by simp⟩
        · rintro ⟨pre, s, now2, post, heq, hs1, hs2, hpre⟩
          cases pre with
          | nil =>
            simp only [List.nil_append, List.cons.injEq, Prod.mk.injEq] at heq
            obtain ⟨⟨heqo, -⟩, -⟩ := heq
            injection heqo with h1 h2
            rw [h2]
          | cons p ps =>
            simp only [List.cons_append, List.cons.injEq] at heq
            obtain ⟨hp, -⟩ := heq
            have h1 := (hpre p (by simp)).1
            rw [← hp] at h1
            simp only [isTransientShape, Bool.or_eq_true, decide_eq_true_eq] at h1
            omega

/-- C7 — amended: `_recReq` treats a transport error or any status outside
200–299 as transient, retrying (after the fixed 500 ms sleep) while the
observed time has not passed the expiration `start + Timeout` and surfacing
an error once it has; the response body is returned as success for any 2xx
status (not only 200). -/
theorem http_retries_characterization :
    (∀ (exp : Int) (trace : List (FetchOutcome × Int)) (b : Bytes),
      recReq exp trace = Except.ok b ↔
        ∃ pre s now post,
          trace = pre ++ (FetchOutcome.resp s b, now) :: post ∧
          200 ≤ s ∧ s ≤ 299 ∧
          ∀ x ∈ pre, isTransientShape x.1 = true ∧ x.2 ≤ exp) ∧
    (∀ (exp : Int) (o : FetchOutcome) (now : Int) (rest : List (FetchOutcome × Int)),
      isTransientShape o = true → exp < now →
      ∃ m, recReq exp ((o, now) :: rest) = Except.error m) ∧
    (∀ (timeout start : Int) (trace : List (FetchOutcome × Int)),
      HTTPWithRetries timeout start trace = recReq (start + timeout) trace) := by
  refine ⟨fun exp trace b => recReq_ok_iff exp trace b, ?_, fun _ _ _ => rfl⟩
  intro exp o now rest ht hexp
  cases o with
  | netErr m => exact ⟨m, by simp [recReq, hexp]⟩
  | resp s body =>
    have hs : s < 200 ∨ 299 < s := by
      simpa only [isTransientShape, Bool.or_eq_true, decide_eq_true_eq] using ht
    refine ⟨"giving up fetch request after request timeout: " ++ toString s, ?_⟩
    simp [recReq, hs, hexp]

/-- C7 — witness for `http_retries_characterization`: a 500 response
observed past the deadline surfaces an error. -/
theorem http_retries_characterization_witness :
    ∃ m, recReq 10 [(FetchOutcome.resp 500 [], 11)] = Except.error m :=
  http_retries_characterization.2.1 10 (FetchOutcome.resp 500 []) 11 []
    (by decide) (by decide)

end Telliot
